import Mathlib

/-!
A shallow embedding of the closure/upvalue runtime in src/src/closure.rs.

GC handles (Gc, GcCell, Table, Thread) are modelled by allocation
identities: natural-number indices into explicit allocation lists held in
a Heap record. Allocation appends to the list and returns the fresh index,
so pointer identity becomes index equality and Gc.ptr_eq is equality of
indices. Machine integers (u8, u16, usize) are modelled by Nat: none of
the verified operations perform arithmetic on them, so overflow is not
observable here.
-/

/-- RegisterIndex of the host crate: an index into a thread's register stack. -/
abbrev RegisterIndex := Nat

/-- UpValueIndex of the host crate: an index into a closure's upvalue vector. -/
abbrev UpValueIndex := Nat

/-- Table of the host crate is a GC heap handle; modelled by its allocation identity. -/
abbrev Table := Nat

/-- Thread of the host crate is a GC heap handle; modelled by its allocation identity. -/
abbrev Thread := Nat

/-- Value of the host crate; the cases used by this module (Table plus
scalar values that can sit in a register or a closed upvalue). -/
inductive Value where
  | nil
  | boolean (b : Bool)
  | integer (n : Int)
  | table (t : Table)
  deriving DecidableEq, Repr

/-- Constant of the host crate: a compiled-in constant; its internal
structure is irrelevant here, any value-like payload works. -/
abbrev Constant := Value

/-- OpCode of the host crate: opcode semantics are out of scope, the
payload is opaque. -/
abbrev OpCode := Nat

/-- enum UpValueDescriptor (src/src/closure.rs). -/
inductive UpValueDescriptor where
  | environment
  | parentLocal (slot : RegisterIndex)
  | outer (idx : UpValueIndex)
  deriving DecidableEq, Repr

/-- struct FunctionProto (src/src/closure.rs). Nested prototypes are
Gc references, modelled by allocation identities. -/
structure FunctionProto where
  fixed_params : Nat
  has_varargs : Bool
  stack_size : Nat
  constants : List Constant
  opcodes : List OpCode
  upvalues : List UpValueDescriptor
  prototypes : List Nat
  deriving DecidableEq, Repr

/-- enum UpValueState (src/src/closure.rs): Open(Thread, usize) or Closed(Value). -/
inductive UpValueState where
  | Open (thread : Thread) (slot : Nat)
  | Closed (v : Value)
  deriving DecidableEq, Repr

/-- struct ClosureState (src/src/closure.rs): a Gc proto reference plus the
upvalue vector; both the proto and each UpValue cell are GC handles,
modelled by allocation identities. -/
structure ClosureState where
  proto : Nat
  upvalues : List Nat
  deriving DecidableEq, Repr

/-- struct Closure (src/src/closure.rs): a shared-ownership Gc handle to a
ClosureState allocation; the field is the allocation identity. -/
structure Closure where
  gc : Nat
  deriving DecidableEq, Repr

/-- enum ClosureError (src/src/closure.rs). -/
inductive ClosureError where
  | HasUpValues
  | RequiresEnv
  deriving DecidableEq, Repr

/-- The GC heap as seen by this module: the allocation lists for
FunctionProto, UpValue cells (GcCell of UpValueState) and ClosureState.
An allocation id is an index into the corresponding list; allocation
appends and returns the list's previous length. -/
structure Heap where
  protos : List FunctionProto
  cells : List UpValueState
  closures : List ClosureState
  deriving DecidableEq, Repr

/-- Closure::new (src/src/closure.rs): create a top-level closure; the
prototype must not have any upvalues besides the environment one.
Mirrors the source: first Gc::allocate the proto; if the descriptor list
is non-empty, reject length > 1 or a non-Environment first descriptor with
HasUpValues, otherwise require the environment table (RequiresEnv when
absent) and allocate a fresh Closed cell wrapping it; finally allocate the
ClosureState. -/
def Closure.new (h : Heap) (proto : FunctionProto) (environment : Option Table) :
    Except ClosureError Closure × Heap :=
  let protoId := h.protos.length
  let h1 : Heap := { h with protos := h.protos ++ [proto] }
  if proto.upvalues.isEmpty then
    (Except.ok ⟨h1.closures.length⟩,
      { h1 with closures := h1.closures ++ [⟨protoId, []⟩] })
  else if 1 < proto.upvalues.length ∨
      proto.upvalues.head? ≠ some UpValueDescriptor.environment then
    (Except.error ClosureError.HasUpValues, h1)
  else
    match environment with
    | some env =>
        let uid := h1.cells.length
        let h2 : Heap := { h1 with
          cells := h1.cells ++ [UpValueState.Closed (Value.table env)] }
        (Except.ok ⟨h2.closures.length⟩,
          { h2 with closures := h2.closures ++ [⟨protoId, [uid]⟩] })
    | none => (Except.error ClosureError.RequiresEnv, h1)

/-- impl PartialEq for Closure (src/src/closure.rs): Gc::ptr_eq of the two
handles, i.e. equality of the allocation identities. -/
def Closure.ptrEq (a b : Closure) : Bool := a.gc == b.gc

/-- impl Hash for Closure (src/src/closure.rs): the data fed to the hasher
is the address of the ClosureState allocation, modelled by the allocation
identity itself. Equal addresses feed the hasher equal data, hence equal
hashes. -/
def Closure.hashPointer (c : Closure) : Nat := c.gc

/-- The mutable runtime state the upvalue accessors touch: the UpValue cell
allocations plus every thread's register stack, as a map (Thread and RegisterIndex
resolve a register; registers outside any live frame simply hold a Value).
The operations on it are not in src/src/closure.rs (they live in the
surrounding interpreter), so they are modelled from the spec below. -/
structure Machine where
  cells : List UpValueState
  stack : Thread → Nat → Value

/-- Modelled from the spec: the Read operation of the UpValue state machine
(spec 4.2); the accessor itself is in the interpreter, not in
src/src/closure.rs. If the cell is Open(thread, slot) read the current
value from that thread's stack at that slot; if Closed(v) return v.
A dangling cell id reads as nil (unreachable for ids handed out by the
allocators). -/
def readCell (m : Machine) (id : Nat) : Value :=
  match m.cells[id]? with
  | some (UpValueState.Open th slot) => m.stack th slot
  | some (UpValueState.Closed v) => v
  | none => Value.nil

/-- Modelled from the spec: the Write operation of the UpValue state machine
(spec 4.2); the accessor itself is in the interpreter, not in
src/src/closure.rs. A write to an Open cell goes to the live stack slot; a
write to a Closed cell replaces the stored value in place. -/
def writeCell (m : Machine) (id : Nat) (v : Value) : Machine :=
  match m.cells[id]? with
  | some (UpValueState.Open th slot) =>
      { m with stack := fun th' s' =>
          if th' = th ∧ s' = slot then v else m.stack th' s' }
  | some (UpValueState.Closed _) =>
      { m with cells := m.cells.set id (UpValueState.Closed v) }
  | none => m

/-- Modelled from the spec: the Close operation of the UpValue state machine
(spec 4.2); triggered by the interpreter, not by code in
src/src/closure.rs. An Open cell copies the current stack value out and
becomes Closed; a cell already Closed is left untouched. -/
def closeCell (m : Machine) (id : Nat) : Machine :=
  match m.cells[id]? with
  | some (UpValueState.Open th slot) =>
      { m with cells := m.cells.set id (UpValueState.Closed (m.stack th slot)) }
  | _ => m

/-- One interpreter-issued operation on an upvalue cell: a read, a write of
a value, or a close. -/
inductive UpValOp where
  | read
  | write (v : Value)
  | close

/-- Apply one operation to the machine; the target cell id comes with the
operation. Reads do not change the machine. -/
def applyOp (m : Machine) (op : Nat × UpValOp) : Machine :=
  match op.2 with
  | UpValOp.read => m
  | UpValOp.write v => writeCell m op.1 v
  | UpValOp.close => closeCell m op.1

/-- Apply a whole sequence of read/write/close operations in order. -/
def applyOps (m : Machine) : List (Nat × UpValOp) → Machine
  | [] => m
  | op :: rest => applyOps (applyOp m op) rest

/-- The cell id currently holds a Closed state. -/
def cellClosed (m : Machine) (id : Nat) : Prop :=
  ∃ v, m.cells[id]? = some (UpValueState.Closed v)

/-- The interpreter's registry of currently-open upvalues: for each
(thread, slot) with a live Open cell, the id of that cell. Paired with the
cell allocation list it is the context the nested instantiation protocol
runs in. -/
structure Frame where
  cells : List UpValueState
  openUps : List ((Thread × Nat) × Nat)
  deriving DecidableEq, Repr

/-- First-match lookup in the open-upvalue registry. -/
def lookupOpen : List ((Thread × Nat) × Nat) → Thread × Nat → Option Nat
  | [], _ => none
  | (k, id) :: rest, key => if key = k then some id else lookupOpen rest key

/-- Modelled from the spec: descriptor resolution of the nested
instantiation protocol (spec 4.4), which lives in the interpreter, not in
src/src/closure.rs. Environment forwards the enclosing closure's own
Environment upvalue (fails when it has none); ParentLocal(slot) reuses the
registered Open cell for (thread, slot) when one exists, else allocates a
fresh Open(thread, slot) cell and registers it; Outer(i) forwards
enclosing.upvalues[i] without allocating. enclosingDescs is the descriptor
list of the enclosing closure's own proto, used to locate its Environment
upvalue. -/
def resolveDescriptor (thread : Thread) (enclosing : ClosureState)
    (enclosingDescs : List UpValueDescriptor) (f : Frame) :
    UpValueDescriptor → Option (Nat × Frame)
  | UpValueDescriptor.environment =>
      match enclosingDescs.findIdx? (fun d => d = UpValueDescriptor.environment) with
      | some i => (enclosing.upvalues[i]?).map (fun id => (id, f))
      | none => none
  | UpValueDescriptor.parentLocal slot =>
      match lookupOpen f.openUps (thread, slot) with
      | some id => some (id, f)
      | none =>
          some (f.cells.length,
            { cells := f.cells ++ [UpValueState.Open thread slot],
              openUps := ((thread, slot), f.cells.length) :: f.openUps })
  | UpValueDescriptor.outer i =>
      (enclosing.upvalues[i]?).map (fun id => (id, f))

/-- Modelled from the spec: resolve a descriptor list in order, threading
the frame (spec 4.4). -/
def resolveAll (thread : Thread) (enclosing : ClosureState)
    (enclosingDescs : List UpValueDescriptor) (f : Frame) :
    List UpValueDescriptor → Option (List Nat × Frame)
  | [] => some ([], f)
  | d :: ds =>
      match resolveDescriptor thread enclosing enclosingDescs f d with
      | none => none
      | some (id, f1) =>
          match resolveAll thread enclosing enclosingDescs f1 ds with
          | none => none
          | some (ids, f2) => some (id :: ids, f2)

/-- Modelled from the spec: the nested instantiation protocol (spec 4.4),
which lives in the interpreter, not in src/src/closure.rs. protoId is the
Gc handle under which the instantiated prototype is allocated; the result
is the new ClosureState (to be wrapped as a new Closure) plus the updated
frame. -/
def instantiate (thread : Thread) (enclosing : ClosureState)
    (enclosingDescs : List UpValueDescriptor) (f : Frame) (protoId : Nat)
    (proto : FunctionProto) : Option (ClosureState × Frame) :=
  match resolveAll thread enclosing enclosingDescs f proto.upvalues with
  | some (ids, f2) => some (⟨protoId, ids⟩, f2)
  | none => none

/-- Claim C1: top-level construction fails with HasUpValues exactly when
the prototype declares more than one upvalue descriptor, or exactly one
descriptor that is not Environment. -/
theorem closure_new_hasUpValues_iff (h : Heap) (proto : FunctionProto)
    (env : Option Table) :
    (Closure.new h proto env).1 = Except.error ClosureError.HasUpValues ↔
      1 < proto.upvalues.length ∨
        ∃ d, proto.upvalues = [d] ∧ d ≠ UpValueDescriptor.environment := by
  unfold Closure.new
  cases hu : proto.upvalues with
  | nil => simp [hu]
  | cons d rest =>
    cases rest with
    | nil =>
      by_cases hd : d = UpValueDescriptor.environment
      · subst hd
        cases env <;> simp
      · simp [hd]
    | cons d2 rest2 =>
      simp [Nat.succ_lt_succ_iff]

/-- Claim C2: with a single Environment descriptor, construction with a
table succeeds and the sole upvalue is a Closed cell holding that table;
without a table it fails with RequiresEnv. -/
theorem closure_new_single_environment (h : Heap) (proto : FunctionProto)
    (t : Table) (hup : proto.upvalues = [UpValueDescriptor.environment]) :
    (∃ c h', Closure.new h proto (some t) = (Except.ok c, h') ∧
      ∃ cs, h'.closures[c.gc]? = some cs ∧
        ∃ uid, cs.upvalues = [uid] ∧
          h'.cells[uid]? = some (UpValueState.Closed (Value.table t))) ∧
    (Closure.new h proto none).1 = Except.error ClosureError.RequiresEnv := by
  constructor
  · refine ⟨⟨h.closures.length⟩,
      { protos := h.protos ++ [proto],
        cells := h.cells ++ [UpValueState.Closed (Value.table t)],
        closures := h.closures ++ [⟨h.protos.length, [h.cells.length]⟩] },
      ?_, ?_⟩
    · simp [Closure.new, hup]
    · refine ⟨⟨h.protos.length, [h.cells.length]⟩, ?_, h.cells.length, rfl, ?_⟩
      · exact List.getElem?_concat_length _ _
      · exact List.getElem?_concat_length _ _
  · simp [Closure.new, hup]

/-- Witness for closure_new_single_environment at a concrete heap,
prototype and table. -/
theorem closure_new_single_environment_witness :
    (∃ c h', Closure.new ⟨[], [], []⟩
        ⟨0, false, 2, [], [], [UpValueDescriptor.environment], []⟩
        (some 7) = (Except.ok c, h') ∧
      ∃ cs, h'.closures[c.gc]? = some cs ∧
        ∃ uid, cs.upvalues = [uid] ∧
          h'.cells[uid]? = some (UpValueState.Closed (Value.table 7))) ∧
    (Closure.new ⟨[], [], []⟩
        ⟨0, false, 2, [], [], [UpValueDescriptor.environment], []⟩
        none).1 = Except.error ClosureError.RequiresEnv :=
  closure_new_single_environment ⟨[], [], []⟩
    ⟨0, false, 2, [], [], [UpValueDescriptor.environment], []⟩ 7 rfl

/-- Claim C3: with an empty descriptor list, construction succeeds with an
empty upvalue vector, whether or not an environment is supplied. -/
theorem closure_new_no_upvalues (h : Heap) (proto : FunctionProto)
    (env : Option Table) (hup : proto.upvalues = []) :
    ∃ c h', Closure.new h proto env = (Except.ok c, h') ∧
      ∃ cs, h'.closures[c.gc]? = some cs ∧ cs.upvalues = [] := by
  refine ⟨⟨h.closures.length⟩,
    { protos := h.protos ++ [proto],
      cells := h.cells,
      closures := h.closures ++ [⟨h.protos.length, []⟩] },
    ?_, ⟨h.protos.length, []⟩, ?_, rfl⟩
  · simp [Closure.new, hup]
  · exact List.getElem?_concat_length _ _

/-- Witness for closure_new_no_upvalues at a concrete heap and prototype. -/
theorem closure_new_no_upvalues_witness :
    ∃ c h', Closure.new ⟨[], [], []⟩ ⟨2, true, 4, [], [], [], []⟩ (some 3) =
        (Except.ok c, h') ∧
      ∃ cs, h'.closures[c.gc]? = some cs ∧ cs.upvalues = [] :=
  closure_new_no_upvalues ⟨[], [], []⟩ ⟨2, true, 4, [], [], [], []⟩ (some 3) rfl

/-- Claim C9: with an empty descriptor list the whole observable outcome of
top-level construction, result and final heap alike, is the same whether an
environment table is supplied or not: the environment argument is ignored. -/
theorem closure_new_ignores_env_when_no_upvalues (h : Heap)
    (proto : FunctionProto) (t : Table) (hup : proto.upvalues = []) :
    Closure.new h proto (some t) = Closure.new h proto none := by
  simp [Closure.new, hup]

/-- Witness for closure_new_ignores_env_when_no_upvalues at a concrete heap,
prototype and table. -/
theorem closure_new_ignores_env_when_no_upvalues_witness :
    Closure.new ⟨[], [], []⟩ ⟨1, false, 3, [], [], [], []⟩ (some 5) =
      Closure.new ⟨[], [], []⟩ ⟨1, false, 3, [], [], [], []⟩ none :=
  closure_new_ignores_env_when_no_upvalues ⟨[], [], []⟩
    ⟨1, false, 3, [], [], [], []⟩ 5 rfl

/-- Claim C5: every ClosureState produced by a successful top-level
construction stores exactly as many upvalue cells as its proto declares
descriptors (and the stored proto is the one that was passed in). -/
theorem closure_new_upvalue_length_invariant (h : Heap)
    (proto : FunctionProto) (env : Option Table) (c : Closure) (h' : Heap)
    (hok : Closure.new h proto env = (Except.ok c, h')) :
    ∃ cs, h'.closures[c.gc]? = some cs ∧
      h'.protos[cs.proto]? = some proto ∧
      cs.upvalues.length = proto.upvalues.length := by
  unfold Closure.new at hok
  cases hu : proto.upvalues with
  | nil =>
    simp [hu] at hok
    obtain ⟨hc, hh⟩ := hok
    subst hh
    refine ⟨⟨h.protos.length, []⟩, ?_, ?_, by simp [hu]⟩
    · rw [← hc]; exact List.getElem?_concat_length _ _
    · exact List.getElem?_concat_length _ _
  | cons d rest =>
    cases rest with
    | cons d2 rest2 => simp [hu, Nat.succ_lt_succ_iff] at hok
    | nil =>
      by_cases hd : d = UpValueDescriptor.environment
      · subst hd
        cases env with
        | none => simp [hu] at hok
        | some t =>
          simp [hu] at hok
          obtain ⟨hc, hh⟩ := hok
          subst hh
          refine ⟨⟨h.protos.length, [h.cells.length]⟩, ?_, ?_, by simp [hu]⟩
          · rw [← hc]; exact List.getElem?_concat_length _ _
          · exact List.getElem?_concat_length _ _
      · simp [hu, hd] at hok

/-- Witness for closure_new_upvalue_length_invariant at a concrete
successful construction. -/
theorem closure_new_upvalue_length_invariant_witness :
    ∃ cs, (Heap.mk [⟨0, false, 2, [], [], [UpValueDescriptor.environment], []⟩]
        [UpValueState.Closed (Value.table 9)]
        [⟨0, [0]⟩]).closures[(0 : Nat)]? = some cs ∧
      (Heap.mk [⟨0, false, 2, [], [], [UpValueDescriptor.environment], []⟩]
        [UpValueState.Closed (Value.table 9)]
        [⟨0, [0]⟩]).protos[cs.proto]? =
          some ⟨0, false, 2, [], [], [UpValueDescriptor.environment], []⟩ ∧
      cs.upvalues.length =
        (FunctionProto.mk 0 false 2 [] [] [UpValueDescriptor.environment]
          []).upvalues.length :=
  closure_new_upvalue_length_invariant ⟨[], [], []⟩
    ⟨0, false, 2, [], [], [UpValueDescriptor.environment], []⟩ (some 9)
    ⟨0⟩ _ rfl

/-- On success, Closure.new allocates the new ClosureState at the end of
the closure list: the handle is the old list's length and the list grows
by exactly one entry. -/
theorem closure_new_ok_alloc (h : Heap) (proto : FunctionProto)
    (env : Option Table) (c : Closure) (h' : Heap)
    (hok : Closure.new h proto env = (Except.ok c, h')) :
    c.gc = h.closures.length ∧ h'.closures.length = h.closures.length + 1 := by
  unfold Closure.new at hok
  cases hu : proto.upvalues with
  | nil =>
    simp [hu] at hok
    obtain ⟨hc, hh⟩ := hok
    subst hh
    simp [← hc]
  | cons d rest =>
    cases rest with
    | cons d2 rest2 => simp [hu, Nat.succ_lt_succ_iff] at hok
    | nil =>
      by_cases hd : d = UpValueDescriptor.environment
      · subst hd
        cases env with
        | none => simp [hu] at hok
        | some t =>
          simp [hu] at hok
          obtain ⟨hc, hh⟩ := hok
          subst hh
          simp [← hc]
      · simp [hu, hd] at hok

/-- Writing through a Closed cell leaves reads through any other cell id
unchanged. -/
theorem readCell_writeCell_closed_ne (m : Machine) (i j : Nat) (v w : Value)
    (hi : m.cells[i]? = some (UpValueState.Closed w)) (hij : i ≠ j) :
    readCell (writeCell m i v) j = readCell m j := by
  unfold writeCell
  rw [hi]
  simp [readCell, List.getElem?_set_ne hij]

/-- Index l.length of l ++ [a] ++ [b] is a. -/
theorem getElem?_append_pair_fst {α : Type} (l : List α) (a b : α) :
    (l ++ [a] ++ [b])[l.length]? = some a := by
  rw [List.append_assoc, List.getElem?_append_right (Nat.le_refl _)]
  simp

/-- Index l.length + 1 of l ++ [a] ++ [b] is b. -/
theorem getElem?_append_pair_snd {α : Type} (l : List α) (a b : α) :
    (l ++ [a] ++ [b])[l.length + 1]? = some b := by
  have hlen : l.length + 1 - l.length = 1 := by omega
  rw [List.append_assoc, List.getElem?_append_right (by omega), hlen]
  rfl

/-- Claim C4: closure equality is identity of the ClosureState allocation
(equal iff same handle), equal closures hash equally, and the closures of
two separate successful top-level constructions from the same prototype
contents and environment table compare unequal. -/
theorem closure_identity_equality (a b : Closure) (h : Heap)
    (proto : FunctionProto) (t : Table) (c1 c2 : Closure) (h1 h2 : Heap)
    (hc1 : Closure.new h proto (some t) = (Except.ok c1, h1))
    (hc2 : Closure.new h1 proto (some t) = (Except.ok c2, h2)) :
    (Closure.ptrEq a b = true ↔ a.gc = b.gc) ∧
    (Closure.ptrEq a b = true → Closure.hashPointer a = Closure.hashPointer b) ∧
    Closure.ptrEq c1 c2 = false := by
  obtain ⟨e1, l1⟩ := closure_new_ok_alloc h proto (some t) c1 h1 hc1
  obtain ⟨e2, l2⟩ := closure_new_ok_alloc h1 proto (some t) c2 h2 hc2
  refine ⟨by simp [Closure.ptrEq], ?_, ?_⟩
  · intro hab
    simp [Closure.ptrEq] at hab
    simp [Closure.hashPointer, hab]
  · simp [Closure.ptrEq]
    omega

/-- Witness for closure_identity_equality: two consecutive constructions
from the same prototype and table on the empty heap give the handles 0 and
1, which compare unequal. -/
theorem closure_identity_equality_witness :
    (Closure.ptrEq ⟨5⟩ ⟨5⟩ = true ↔ (Closure.mk 5).gc = (Closure.mk 5).gc) ∧
    (Closure.ptrEq ⟨5⟩ ⟨5⟩ = true →
      Closure.hashPointer ⟨5⟩ = Closure.hashPointer ⟨5⟩) ∧
    Closure.ptrEq ⟨0⟩ ⟨1⟩ = false :=
  closure_identity_equality ⟨5⟩ ⟨5⟩ ⟨[], [], []⟩
    ⟨0, false, 2, [], [], [UpValueDescriptor.environment], []⟩ 4 ⟨0⟩ ⟨1⟩
    ⟨[⟨0, false, 2, [], [], [UpValueDescriptor.environment], []⟩],
      [UpValueState.Closed (Value.table 4)], [⟨0, [0]⟩]⟩
    ⟨[⟨0, false, 2, [], [], [UpValueDescriptor.environment], []⟩,
        ⟨0, false, 2, [], [], [UpValueDescriptor.environment], []⟩],
      [UpValueState.Closed (Value.table 4), UpValueState.Closed (Value.table 4)],
      [⟨0, [0]⟩, ⟨1, [1]⟩]⟩
    rfl rfl

/-- Claim C10: each successful top-level construction with a single
Environment descriptor allocates a fresh cell: two consecutive successful
constructions, even from the same table, store distinct cell ids, both
Closed on that table, and a write through the first cell is invisible to a
read through the second. -/
theorem closure_new_env_cell_fresh (h : Heap) (proto : FunctionProto)
    (t : Table) (c1 c2 : Closure) (h1 h2 : Heap)
    (hup : proto.upvalues = [UpValueDescriptor.environment])
    (hc1 : Closure.new h proto (some t) = (Except.ok c1, h1))
    (hc2 : Closure.new h1 proto (some t) = (Except.ok c2, h2)) :
    ∃ u1 u2 cs1 cs2,
      h2.closures[c1.gc]? = some cs1 ∧ cs1.upvalues = [u1] ∧
      h2.closures[c2.gc]? = some cs2 ∧ cs2.upvalues = [u2] ∧
      u1 ≠ u2 ∧
      h2.cells[u1]? = some (UpValueState.Closed (Value.table t)) ∧
      h2.cells[u2]? = some (UpValueState.Closed (Value.table t)) ∧
      ∀ (st : Thread → Nat → Value) (v : Value),
        readCell (writeCell ⟨h2.cells, st⟩ u1 v) u2 =
          readCell ⟨h2.cells, st⟩ u2 := by
  simp [Closure.new, hup] at hc1
  obtain ⟨hcc1, hh1⟩ := hc1
  subst hh1
  subst hcc1
  simp [Closure.new, hup] at hc2
  obtain ⟨hcc2, hh2⟩ := hc2
  subst hh2
  subst hcc2
  refine ⟨h.cells.length, h.cells.length + 1,
    ⟨h.protos.length, [h.cells.length]⟩,
    ⟨h.protos.length + 1, [h.cells.length + 1]⟩,
    ?_, rfl, ?_, rfl, by omega, ?_, ?_, ?_⟩
  · simpa using getElem?_append_pair_fst h.closures _ _
  · simpa using getElem?_append_pair_snd h.closures _ _
  · simpa using getElem?_append_pair_fst h.cells _ _
  · simpa using getElem?_append_pair_snd h.cells _ _
  · intro st v
    refine readCell_writeCell_closed_ne _ _ _ _ (Value.table t) ?_ (by omega)
    simpa using getElem?_append_pair_fst h.cells _ _

/-- Witness for closure_new_env_cell_fresh: two consecutive constructions
on the empty heap from the same single-Environment prototype and table 9. -/
theorem closure_new_env_cell_fresh_witness :
    ∃ u1 u2 cs1 cs2,
      (Heap.mk
        [⟨0, false, 2, [], [], [UpValueDescriptor.environment], []⟩,
          ⟨0, false, 2, [], [], [UpValueDescriptor.environment], []⟩]
        [UpValueState.Closed (Value.table 9), UpValueState.Closed (Value.table 9)]
        [⟨0, [0]⟩, ⟨1, [1]⟩]).closures[(Closure.mk 0).gc]? = some cs1 ∧
      cs1.upvalues = [u1] ∧
      (Heap.mk
        [⟨0, false, 2, [], [], [UpValueDescriptor.environment], []⟩,
          ⟨0, false, 2, [], [], [UpValueDescriptor.environment], []⟩]
        [UpValueState.Closed (Value.table 9), UpValueState.Closed (Value.table 9)]
        [⟨0, [0]⟩, ⟨1, [1]⟩]).closures[(Closure.mk 1).gc]? = some cs2 ∧
      cs2.upvalues = [u2] ∧
      u1 ≠ u2 ∧
      (Heap.mk
        [⟨0, false, 2, [], [], [UpValueDescriptor.environment], []⟩,
          ⟨0, false, 2, [], [], [UpValueDescriptor.environment], []⟩]
        [UpValueState.Closed (Value.table 9), UpValueState.Closed (Value.table 9)]
        [⟨0, [0]⟩, ⟨1, [1]⟩]).cells[u1]? =
          some (UpValueState.Closed (Value.table 9)) ∧
      (Heap.mk
        [⟨0, false, 2, [], [], [UpValueDescriptor.environment], []⟩,
          ⟨0, false, 2, [], [], [UpValueDescriptor.environment], []⟩]
        [UpValueState.Closed (Value.table 9), UpValueState.Closed (Value.table 9)]
        [⟨0, [0]⟩, ⟨1, [1]⟩]).cells[u2]? =
          some (UpValueState.Closed (Value.table 9)) ∧
      ∀ (st : Thread → Nat → Value) (v : Value),
        readCell
          (writeCell
            ⟨(Heap.mk
              [⟨0, false, 2, [], [], [UpValueDescriptor.environment], []⟩,
                ⟨0, false, 2, [], [], [UpValueDescriptor.environment], []⟩]
              [UpValueState.Closed (Value.table 9),
                UpValueState.Closed (Value.table 9)]
              [⟨0, [0]⟩, ⟨1, [1]⟩]).cells, st⟩ u1 v) u2 =
          readCell
            ⟨(Heap.mk
              [⟨0, false, 2, [], [], [UpValueDescriptor.environment], []⟩,
                ⟨0, false, 2, [], [], [UpValueDescriptor.environment], []⟩]
              [UpValueState.Closed (Value.table 9),
                UpValueState.Closed (Value.table 9)]
              [⟨0, [0]⟩, ⟨1, [1]⟩]).cells, st⟩ u2 :=
  closure_new_env_cell_fresh ⟨[], [], []⟩
    ⟨0, false, 2, [], [], [UpValueDescriptor.environment], []⟩ 9 ⟨0⟩ ⟨1⟩
    ⟨[⟨0, false, 2, [], [], [UpValueDescriptor.environment], []⟩],
      [UpValueState.Closed (Value.table 9)], [⟨0, [0]⟩]⟩
    ⟨[⟨0, false, 2, [], [], [UpValueDescriptor.environment], []⟩,
        ⟨0, false, 2, [], [], [UpValueDescriptor.environment], []⟩],
      [UpValueState.Closed (Value.table 9), UpValueState.Closed (Value.table 9)],
      [⟨0, [0]⟩, ⟨1, [1]⟩]⟩
    rfl rfl rfl

/-- A single read, write or close operation, whatever cell it targets,
cannot take a Closed cell back to Open. -/
theorem applyOp_preserves_closed (m : Machine) (id : Nat)
    (op : Nat × UpValOp) (h : cellClosed m id) :
    cellClosed (applyOp m op) id := by
  obtain ⟨v, hv⟩ := h
  obtain ⟨i, o⟩ := op
  cases o with
  | read => exact ⟨v, hv⟩
  | write w =>
    simp only [applyOp, writeCell]
    cases hic : m.cells[i]? with
    | none => exact ⟨v, hv⟩
    | some s =>
      cases s with
      | Open th slot => exact ⟨v, hv⟩
      | Closed u =>
        by_cases hij : i = id
        · subst hij
          have hlen : i < m.cells.length := (List.getElem?_eq_some.mp hv).1
          exact ⟨w, by simp [List.getElem?_set_self, hlen]⟩
        · exact ⟨v, by rw [List.getElem?_set_ne hij]; exact hv⟩
  | close =>
    simp only [applyOp, closeCell]
    cases hic : m.cells[i]? with
    | none => exact ⟨v, hv⟩
    | some s =>
      cases s with
      | Closed u => exact ⟨v, hv⟩
      | Open th slot =>
        have hij : i ≠ id := by
          intro heq
          rw [heq, hv] at hic
          exact UpValueState.noConfusion (Option.some.injEq _ _ ▸ hic)
        exact ⟨v, by rw [List.getElem?_set_ne hij]; exact hv⟩

/-- Claim C6: the UpValue transition is one-directional: a Closed cell is
still Closed after any sequence of read, write and close operations on any
cells, and closing a cell that is already Closed leaves the machine
untouched. -/
theorem upvalue_closed_is_final (m : Machine) (id : Nat)
    (ops : List (Nat × UpValOp)) (h : cellClosed m id) :
    cellClosed (applyOps m ops) id ∧ closeCell m id = m := by
  constructor
  · induction ops generalizing m with
    | nil => exact h
    | cons op rest ih => exact ih _ (applyOp_preserves_closed m id op h)
  · obtain ⟨v, hv⟩ := h
    unfold closeCell
    rw [hv]

/-- Witness for upvalue_closed_is_final: a one-cell machine whose cell 0 is
Closed on nil, driven by a write, two closes and a read. -/
theorem upvalue_closed_is_final_witness :
    cellClosed
      (applyOps ⟨[UpValueState.Closed Value.nil], fun _ _ => Value.nil⟩
        [(0, UpValOp.write (Value.integer 3)), (0, UpValOp.close),
          (0, UpValOp.read), (0, UpValOp.close)]) 0 ∧
    closeCell ⟨[UpValueState.Closed Value.nil], fun _ _ => Value.nil⟩ 0 =
      ⟨[UpValueState.Closed Value.nil], fun _ _ => Value.nil⟩ :=
  upvalue_closed_is_final ⟨[UpValueState.Closed Value.nil], fun _ _ => Value.nil⟩
    0
    [(0, UpValOp.write (Value.integer 3)), (0, UpValOp.close),
      (0, UpValOp.read), (0, UpValOp.close)]
    ⟨Value.nil, rfl⟩

/-- A frame is well-formed when every registered open upvalue points at an
allocated cell. -/
def frameWF (f : Frame) : Prop :=
  ∀ k id, lookupOpen f.openUps k = some id → id < f.cells.length

/-- Descriptor resolution keeps every existing open-upvalue registration. -/
theorem resolveDescriptor_preserves_lookup (thread : Thread)
    (enclosing : ClosureState) (eds : List UpValueDescriptor) (f : Frame)
    (d : UpValueDescriptor) (key : Thread × Nat) (id0 : Nat)
    (hkey : lookupOpen f.openUps key = some id0) (idf : Nat) (f1 : Frame)
    (hres : resolveDescriptor thread enclosing eds f d = some (idf, f1)) :
    lookupOpen f1.openUps key = some id0 := by
  cases d with
  | environment =>
    simp only [resolveDescriptor] at hres
    cases hfd : eds.findIdx? (fun d => d = UpValueDescriptor.environment) with
    | none => simp [hfd] at hres
    | some i =>
      cases hel : enclosing.upvalues[i]? with
      | none => simp [hfd, hel] at hres
      | some id2 =>
        simp [hfd, hel] at hres
        rw [← hres.2]
        exact hkey
  | parentLocal slot =>
    simp only [resolveDescriptor] at hres
    cases hlk : lookupOpen f.openUps (thread, slot) with
    | some id =>
      simp [hlk] at hres
      rw [← hres.2]
      exact hkey
    | none =>
      simp [hlk] at hres
      rw [← hres.2]
      simp only [lookupOpen]
      rw [if_neg]
      · exact hkey
      · intro heq
        rw [heq, hlk] at hkey
        exact Option.noConfusion hkey
  | outer i =>
    simp only [resolveDescriptor] at hres
    cases hel : enclosing.upvalues[i]? with
    | none => simp [hel] at hres
    | some id2 =>
      simp [hel] at hres
      rw [← hres.2]
      exact hkey

/-- Resolving a whole descriptor list keeps every existing open-upvalue
registration. -/
theorem resolveAll_preserves_lookup (thread : Thread)
    (enclosing : ClosureState) (eds : List UpValueDescriptor)
    (ds : List UpValueDescriptor) (f : Frame) (key : Thread × Nat) (id0 : Nat)
    (hkey : lookupOpen f.openUps key = some id0) (ids : List Nat) (f2 : Frame)
    (hres : resolveAll thread enclosing eds f ds = some (ids, f2)) :
    lookupOpen f2.openUps key = some id0 := by
  induction ds generalizing f ids f2 with
  | nil =>
    simp only [resolveAll] at hres
    simp at hres
    rw [← hres.2]
    exact hkey
  | cons d rest ih =>
    simp only [resolveAll] at hres
    cases hrd : resolveDescriptor thread enclosing eds f d with
    | none => simp [hrd] at hres
    | some pr =>
      obtain ⟨id1, f1⟩ := pr
      cases hra : resolveAll thread enclosing eds f1 rest with
      | none => simp [hrd, hra] at hres
      | some pr2 =>
        obtain ⟨ids2, f2x⟩ := pr2
        simp [hrd, hra] at hres
        rw [← hres.2]
        exact ih f1
          (resolveDescriptor_preserves_lookup thread enclosing eds f d key id0
            hkey id1 f1 hrd)
          ids2 f2x hra

/-- Descriptor resolution only appends cells. -/
theorem resolveDescriptor_cells_mono (thread : Thread)
    (enclosing : ClosureState) (eds : List UpValueDescriptor) (f : Frame)
    (d : UpValueDescriptor) (idf : Nat) (f1 : Frame)
    (hres : resolveDescriptor thread enclosing eds f d = some (idf, f1)) :
    f.cells.length ≤ f1.cells.length := by
  cases d with
  | environment =>
    simp only [resolveDescriptor] at hres
    cases hfd : eds.findIdx? (fun d => d = UpValueDescriptor.environment) with
    | none => simp [hfd] at hres
    | some i =>
      cases hel : enclosing.upvalues[i]? with
      | none => simp [hfd, hel] at hres
      | some id2 => simp [hfd, hel] at hres; rw [← hres.2]
  | parentLocal slot =>
    simp only [resolveDescriptor] at hres
    cases hlk : lookupOpen f.openUps (thread, slot) with
    | some id => simp [hlk] at hres; rw [← hres.2]
    | none => simp [hlk] at hres; rw [← hres.2]; simp
  | outer i =>
    simp only [resolveDescriptor] at hres
    cases hel : enclosing.upvalues[i]? with
    | none => simp [hel] at hres
    | some id2 => simp [hel] at hres; rw [← hres.2]

/-- List resolution only appends cells. -/
theorem resolveAll_cells_mono (thread : Thread) (enclosing : ClosureState)
    (eds : List UpValueDescriptor) (ds : List UpValueDescriptor) (f : Frame)
    (ids : List Nat) (f2 : Frame)
    (hres : resolveAll thread enclosing eds f ds = some (ids, f2)) :
    f.cells.length ≤ f2.cells.length := by
  induction ds generalizing f ids f2 with
  | nil =>
    simp only [resolveAll] at hres
    simp at hres
    rw [← hres.2]
  | cons d rest ih =>
    simp only [resolveAll] at hres
    cases hrd : resolveDescriptor thread enclosing eds f d with
    | none => simp [hrd] at hres
    | some pr =>
      obtain ⟨id1, f1⟩ := pr
      cases hra : resolveAll thread enclosing eds f1 rest with
      | none => simp [hrd, hra] at hres
      | some pr2 =>
        obtain ⟨ids2, f2x⟩ := pr2
        simp [hrd, hra] at hres
        rw [← hres.2]
        exact Nat.le_trans
          (resolveDescriptor_cells_mono thread enclosing eds f d id1 f1 hrd)
          (ih f1 ids2 f2x hra)

/-- Descriptor resolution preserves frame well-formedness. -/
theorem resolveDescriptor_wf (thread : Thread) (enclosing : ClosureState)
    (eds : List UpValueDescriptor) (f : Frame) (d : UpValueDescriptor)
    (idf : Nat) (f1 : Frame) (hwf : frameWF f)
    (hres : resolveDescriptor thread enclosing eds f d = some (idf, f1)) :
    frameWF f1 := by
  cases d with
  | environment =>
    simp only [resolveDescriptor] at hres
    cases hfd : eds.findIdx? (fun d => d = UpValueDescriptor.environment) with
    | none => simp [hfd] at hres
    | some i =>
      cases hel : enclosing.upvalues[i]? with
      | none => simp [hfd, hel] at hres
      | some id2 => simp [hfd, hel] at hres; rw [← hres.2]; exact hwf
  | parentLocal slot =>
    simp only [resolveDescriptor] at hres
    cases hlk : lookupOpen f.openUps (thread, slot) with
    | some id => simp [hlk] at hres; rw [← hres.2]; exact hwf
    | none =>
      simp [hlk] at hres
      rw [← hres.2]
      intro k id hk
      simp only [lookupOpen] at hk
      by_cases hkk : k = (thread, slot)
      · rw [if_pos hkk] at hk
        simp at hk
        simp [← hk]
      · rw [if_neg hkk] at hk
        have := hwf k id hk
        simp
        omega
  | outer i =>
    simp only [resolveDescriptor] at hres
    cases hel : enclosing.upvalues[i]? with
    | none => simp [hel] at hres
    | some id2 => simp [hel] at hres; rw [← hres.2]; exact hwf

/-- List resolution preserves frame well-formedness. -/
theorem resolveAll_wf (thread : Thread) (enclosing : ClosureState)
    (eds : List UpValueDescriptor) (ds : List UpValueDescriptor) (f : Frame)
    (ids : List Nat) (f2 : Frame) (hwf : frameWF f)
    (hres : resolveAll thread enclosing eds f ds = some (ids, f2)) :
    frameWF f2 := by
  induction ds generalizing f ids f2 with
  | nil =>
    simp only [resolveAll] at hres
    simp at hres
    rw [← hres.2]
    exact hwf
  | cons d rest ih =>
    simp only [resolveAll] at hres
    cases hrd : resolveDescriptor thread enclosing eds f d with
    | none => simp [hrd] at hres
    | some pr =>
      obtain ⟨id1, f1⟩ := pr
      cases hra : resolveAll thread enclosing eds f1 rest with
      | none => simp [hrd, hra] at hres
      | some pr2 =>
        obtain ⟨ids2, f2x⟩ := pr2
        simp [hrd, hra] at hres
        rw [← hres.2]
        exact ih f1 ids2 f2x
          (resolveDescriptor_wf thread enclosing eds f d id1 f1 hwf hrd) hra

/-- After resolving a list with ParentLocal slot at position i, the cell
stored at position i of the result is exactly the cell the final registry
maps (thread, slot) to. -/
theorem resolveAll_parentLocal_registered (thread : Thread)
    (enclosing : ClosureState) (eds : List UpValueDescriptor)
    (ds : List UpValueDescriptor) (f : Frame) (ids : List Nat) (f2 : Frame)
    (i slot : Nat)
    (hds : ds[i]? = some (UpValueDescriptor.parentLocal slot))
    (hres : resolveAll thread enclosing eds f ds = some (ids, f2)) :
    ∃ id, ids[i]? = some id ∧ lookupOpen f2.openUps (thread, slot) = some id := by
  induction ds generalizing f ids f2 i with
  | nil => simp at hds
  | cons d rest ih =>
    simp only [resolveAll] at hres
    cases hrd : resolveDescriptor thread enclosing eds f d with
    | none => simp [hrd] at hres
    | some pr =>
      obtain ⟨id1, f1⟩ := pr
      cases hra : resolveAll thread enclosing eds f1 rest with
      | none => simp [hrd, hra] at hres
      | some pr2 =>
        obtain ⟨ids2, f2x⟩ := pr2
        simp [hrd, hra] at hres
        obtain ⟨hids, hf2⟩ := hres
        subst hids
        subst hf2
        cases i with
        | zero =>
          simp at hds
          subst hds
          have hreg : lookupOpen f1.openUps (thread, slot) = some id1 := by
            simp only [resolveDescriptor] at hrd
            cases hlk : lookupOpen f.openUps (thread, slot) with
            | some id =>
              simp [hlk] at hrd
              rw [← hrd.2, ← hrd.1]
              exact hlk
            | none =>
              simp [hlk] at hrd
              rw [← hrd.2, ← hrd.1]
              simp [lookupOpen]
          exact ⟨id1, by simp,
            resolveAll_preserves_lookup thread enclosing eds rest f1
              (thread, slot) id1 hreg ids2 f2x hra⟩
        | succ n =>
          simp at hds
          obtain ⟨id, hid, hlook⟩ := ih f1 ids2 f2x n hds hra
          exact ⟨id, by simpa using hid, hlook⟩

/-- If the registry already maps (thread, slot) to a cell, resolving a list
with ParentLocal slot at position j reuses exactly that cell there. -/
theorem resolveAll_parentLocal_reuses (thread : Thread)
    (enclosing : ClosureState) (eds : List UpValueDescriptor)
    (ds : List UpValueDescriptor) (f : Frame) (ids : List Nat) (f2 : Frame)
    (j slot id0 : Nat)
    (hkey : lookupOpen f.openUps (thread, slot) = some id0)
    (hds : ds[j]? = some (UpValueDescriptor.parentLocal slot))
    (hres : resolveAll thread enclosing eds f ds = some (ids, f2)) :
    ids[j]? = some id0 := by
  induction ds generalizing f ids f2 j with
  | nil => simp at hds
  | cons d rest ih =>
    simp only [resolveAll] at hres
    cases hrd : resolveDescriptor thread enclosing eds f d with
    | none => simp [hrd] at hres
    | some pr =>
      obtain ⟨id1, f1⟩ := pr
      cases hra : resolveAll thread enclosing eds f1 rest with
      | none => simp [hrd, hra] at hres
      | some pr2 =>
        obtain ⟨ids2, f2x⟩ := pr2
        simp [hrd, hra] at hres
        obtain ⟨hids, hf2⟩ := hres
        subst hids
        subst hf2
        cases j with
        | zero =>
          simp at hds
          subst hds
          simp only [resolveDescriptor] at hrd
          rw [hkey] at hrd
          simp at hrd
          simp [hrd.1]
        | succ n =>
          simp at hds
          have hkey1 := resolveDescriptor_preserves_lookup thread enclosing
            eds f d (thread, slot) id0 hkey id1 f1 hrd
          simpa using ih f1 ids2 f2x n hkey1 hds hra

/-- Writing through a valid cell id is observed by a read through the same
cell id. -/
theorem readCell_writeCell_self (m : Machine) (id : Nat) (v : Value)
    (hid : id < m.cells.length) :
    readCell (writeCell m id v) id = v := by
  unfold writeCell
  cases hic : m.cells[id]? with
  | none =>
    have := List.getElem?_eq_none_iff.mp hic
    omega
  | some s =>
    cases s with
    | Open th slot => simp [readCell, hic]
    | Closed u => simp [readCell, List.getElem?_set_self, hid]

/-- Claim C7: two nested closures instantiated one after the other in the
same executing frame, both declaring ParentLocal(slot) for the same slot,
hold the identical upvalue cell at the corresponding positions, and a
write through that shared cell is observed by a read through it. -/
theorem sibling_parentLocal_shares_cell (thread : Thread)
    (enclosing : ClosureState) (eds : List UpValueDescriptor)
    (f f1 f2 : Frame) (p1 p2 : FunctionProto) (pid1 pid2 : Nat)
    (c1 c2 : ClosureState) (i j slot : Nat) (hwf : frameWF f)
    (hd1 : p1.upvalues[i]? = some (UpValueDescriptor.parentLocal slot))
    (hd2 : p2.upvalues[j]? = some (UpValueDescriptor.parentLocal slot))
    (hin1 : instantiate thread enclosing eds f pid1 p1 = some (c1, f1))
    (hin2 : instantiate thread enclosing eds f1 pid2 p2 = some (c2, f2)) :
    ∃ id, c1.upvalues[i]? = some id ∧ c2.upvalues[j]? = some id ∧
      id < f2.cells.length ∧
      ∀ (st : Thread → Nat → Value) (v : Value),
        readCell (writeCell ⟨f2.cells, st⟩ id v) id = v := by
  simp only [instantiate] at hin1 hin2
  cases hra1 : resolveAll thread enclosing eds f p1.upvalues with
  | none => simp [hra1] at hin1
  | some pr1 =>
    obtain ⟨ids1, f1x⟩ := pr1
    simp [hra1] at hin1
    obtain ⟨hc1, hf1⟩ := hin1
    subst hf1
    cases hra2 : resolveAll thread enclosing eds f1x p2.upvalues with
    | none => simp [hra2] at hin2
    | some pr2 =>
      obtain ⟨ids2, f2x⟩ := pr2
      simp [hra2] at hin2
      obtain ⟨hc2, hf2⟩ := hin2
      subst hf2
      obtain ⟨id, hid1, hreg⟩ := resolveAll_parentLocal_registered thread
        enclosing eds p1.upvalues f ids1 f1x i slot hd1 hra1
      have hid2 := resolveAll_parentLocal_reuses thread enclosing eds
        p2.upvalues f1x ids2 f2x j slot id hreg hd2 hra2
      have hwf1 : frameWF f1x :=
        resolveAll_wf thread enclosing eds p1.upvalues f ids1 f1x hwf hra1
      have hlt : id < f1x.cells.length := hwf1 (thread, slot) id hreg
      have hmono := resolveAll_cells_mono thread enclosing eds p2.upvalues
        f1x ids2 f2x hra2
      refine ⟨id, ?_, ?_, by omega, ?_⟩
      · rw [← hc1]; exact hid1
      · rw [← hc2]; exact hid2
      · intro st v
        refine readCell_writeCell_self ⟨f2x.cells, st⟩ id v ?_
        show id < f2x.cells.length
        omega

/-- Witness for sibling_parentLocal_shares_cell: two single-descriptor
prototypes both capturing ParentLocal(3) on thread 0, instantiated back to
back in an initially empty frame. -/
theorem sibling_parentLocal_shares_cell_witness :
    ∃ id, (ClosureState.mk 1 [0]).upvalues[(0 : Nat)]? = some id ∧
      (ClosureState.mk 2 [0]).upvalues[(0 : Nat)]? = some id ∧
      id < (Frame.mk [UpValueState.Open 0 3] [((0, 3), 0)]).cells.length ∧
      ∀ (st : Thread → Nat → Value) (v : Value),
        readCell
          (writeCell
            ⟨(Frame.mk [UpValueState.Open 0 3] [((0, 3), 0)]).cells, st⟩
            id v) id = v :=
  sibling_parentLocal_shares_cell 0 ⟨0, []⟩ [] ⟨[], []⟩
    ⟨[UpValueState.Open 0 3], [((0, 3), 0)]⟩
    ⟨[UpValueState.Open 0 3], [((0, 3), 0)]⟩
    ⟨0, false, 2, [], [], [UpValueDescriptor.parentLocal 3], []⟩
    ⟨0, false, 2, [], [], [UpValueDescriptor.parentLocal 3], []⟩
    1 2 ⟨1, [0]⟩ ⟨2, [0]⟩ 0 0 3
    (fun k id hk => by simp [lookupOpen] at hk)
    rfl rfl rfl rfl

/-- Resolving a list with Outer(j) at position i stores at position i the
very cell the enclosing closure holds at position j. -/
theorem resolveAll_outer_forwards (thread : Thread)
    (enclosing : ClosureState) (eds : List UpValueDescriptor)
    (ds : List UpValueDescriptor) (f : Frame) (ids : List Nat) (f2 : Frame)
    (i j : Nat) (hds : ds[i]? = some (UpValueDescriptor.outer j))
    (hres : resolveAll thread enclosing eds f ds = some (ids, f2)) :
    ∃ id, enclosing.upvalues[j]? = some id ∧ ids[i]? = some id := by
  induction ds generalizing f ids f2 i with
  | nil => simp at hds
  | cons d rest ih =>
    simp only [resolveAll] at hres
    cases hrd : resolveDescriptor thread enclosing eds f d with
    | none => simp [hrd] at hres
    | some pr =>
      obtain ⟨id1, f1⟩ := pr
      cases hra : resolveAll thread enclosing eds f1 rest with
      | none => simp [hrd, hra] at hres
      | some pr2 =>
        obtain ⟨ids2, f2x⟩ := pr2
        simp [hrd, hra] at hres
        obtain ⟨hids, hf2⟩ := hres
        subst hids
        subst hf2
        cases i with
        | zero =>
          simp at hds
          subst hds
          simp only [resolveDescriptor] at hrd
          cases hel : enclosing.upvalues[j]? with
          | none => simp [hel] at hrd
          | some id2 =>
            simp [hel] at hrd
            exact ⟨id2, rfl, by simp [hrd.1]⟩
        | succ n =>
          simp at hds
          obtain ⟨id, henc, hid⟩ := ih f1 ids2 f2x n hds hra
          exact ⟨id, henc, by simpa using hid⟩

/-- Claim C8: Outer(j) forwarding: the instantiated closure's upvalue at
the position of an Outer(j) descriptor is the identical cell the enclosing
closure holds at position j, and resolving an Outer descriptor never
changes the frame, so it never allocates a cell. -/
theorem outer_forwards_enclosing_cell (thread : Thread)
    (enclosing : ClosureState) (eds : List UpValueDescriptor) (f f1 : Frame)
    (p : FunctionProto) (pid : Nat) (c : ClosureState) (i j : Nat)
    (hd : p.upvalues[i]? = some (UpValueDescriptor.outer j))
    (hin : instantiate thread enclosing eds f pid p = some (c, f1)) :
    (∃ id, enclosing.upvalues[j]? = some id ∧ c.upvalues[i]? = some id) ∧
    ∀ (g g1 : Frame) (idf : Nat),
      resolveDescriptor thread enclosing eds g (UpValueDescriptor.outer j) =
        some (idf, g1) → g1 = g := by
  constructor
  · simp only [instantiate] at hin
    cases hra : resolveAll thread enclosing eds f p.upvalues with
    | none => simp [hra] at hin
    | some pr =>
      obtain ⟨ids, f2x⟩ := pr
      simp [hra] at hin
      obtain ⟨hc, hf⟩ := hin
      obtain ⟨id, henc, hid⟩ := resolveAll_outer_forwards thread enclosing
        eds p.upvalues f ids f2x i j hd hra
      exact ⟨id, henc, by rw [← hc]; exact hid⟩
  · intro g g1 idf hres
    simp only [resolveDescriptor] at hres
    cases hel : enclosing.upvalues[j]? with
    | none => simp [hel] at hres
    | some id2 =>
      simp [hel] at hres
      exact hres.2.symm

/-- Witness for outer_forwards_enclosing_cell: a nested prototype whose
single descriptor is Outer(0), instantiated under an enclosing closure
whose upvalue 0 is cell 7. -/
theorem outer_forwards_enclosing_cell_witness :
    (∃ id, (ClosureState.mk 0 [7]).upvalues[(0 : Nat)]? = some id ∧
      (ClosureState.mk 3 [7]).upvalues[(0 : Nat)]? = some id) ∧
    ∀ (g g1 : Frame) (idf : Nat),
      resolveDescriptor 0 ⟨0, [7]⟩ [UpValueDescriptor.environment] g
        (UpValueDescriptor.outer 0) = some (idf, g1) → g1 = g :=
  outer_forwards_enclosing_cell 0 ⟨0, [7]⟩ [UpValueDescriptor.environment]
    ⟨[], []⟩ ⟨[], []⟩
    ⟨0, false, 2, [], [], [UpValueDescriptor.outer 0], []⟩
    3 ⟨3, [7]⟩ 0 0 rfl rfl
